import Mathlib

/-!
# Recursive web crawler (`main.go`): a shallow embedding

The crawler of `main.go` is embedded as pure functions over an explicit state.

* The global `crawledLinks : map[string]bool` is an association list with one
  pair per key (`CrawledLinks`), read with `CrawledLinks.get` (Go's `m[k]`, the
  zero value `false` when the key is absent) and written with
  `CrawledLinks.set` (Go's `m[k] = v`).
* The standard library and the network are not part of the repository; they
  are the fields of `Web`: `baseUrl.Host`, `baseUrl.Parse(x).String()`,
  `http.Get`, `goquery.NewDocumentFromReader` and `doc.Find("body a")`.
* `getUrlHtml` and `crawlWithRecursion` are translated statement by statement.
  The goroutines spawned by the `for ... range pageUrls` loop are run one after
  the other in list order, which is one of the schedules of the source: the
  final set of keys does not depend on the schedule, the order of the trace
  does. `CrawlsTo` is the same program with the children of each page run in
  an arbitrary order; what is said about the order of fetches is said of it.
* A ghost trace (`Event`) records invocations, the lines printed and the
  requests issued.
-/

namespace Crawler

/-! ## `strings.Contains` -/

/-- Whether the character list `s` begins with `p` (`strings.HasPrefix`). -/
def startsWith : List Char → List Char → Bool
  | _, [] => true
  | [], _ :: _ => false
  | c :: s, d :: p => decide (c = d) && startsWith s p

/-- Whether `substr` occurs somewhere in `s`, on character lists. -/
def containsChars : List Char → List Char → Bool
  | [], p => startsWith [] p
  | c :: s, p => startsWith (c :: s) p || containsChars s p

/-- Go `strings.Contains(s, substr)`: `substr` is within `s`. -/
def stringsContains (s substr : String) : Bool :=
  containsChars s.data substr.data

/-! ## The global map `crawledLinks` -/

/-- Go `map[string]bool` as an association list. -/
abbrev CrawledLinks := List (String × Bool)

namespace CrawledLinks

/-- Go `m[k]` on a `map[string]bool`: the stored value, `false` when absent. -/
def get : CrawledLinks → String → Bool
  | [], _ => false
  | (k', v) :: rest, k => if k' = k then v else get rest k

/-- Go `m[k] = v`: overwrite the entry of `k`, or add one when there is none. -/
def set : CrawledLinks → String → Bool → CrawledLinks
  | [], k, v => [(k, v)]
  | (k', v') :: rest, k, v => if k' = k then (k, v) :: rest else (k', v') :: set rest k v

/-- The keys of the map, in entry order (the keys of the JSON object printed by `main`). -/
def keys (m : CrawledLinks) : List String := m.map Prod.fst

/-- Lines 69-72: `if !crawledLinks[u] then crawledLinks[u] = true`. -/
def record (m : CrawledLinks) (u : String) : CrawledLinks :=
  if !m.get u then m.set u true else m

end CrawledLinks

/-! ## The outside world -/

/-- What `http.Get` hands back when there is no transport error. -/
structure Response where
  statusCode : Nat
  body : String
deriving DecidableEq, Repr

/-- A parsed page; `hrefs` is what `doc.Find("body a").Each` collects into
`pageUrls`: the `href` value of every anchor in document order (the empty
string for an anchor without one). -/
structure Document where
  hrefs : List String
deriving DecidableEq, Repr

/-- The base URL and the library calls made on it and on the network. -/
structure Web where
  /-- Field `baseUrl.Host`. -/
  host : String
  /-- Call `baseUrl.Parse(inputUrl)` followed by `.String()`; `none` when `err != nil`. -/
  resolve : String → Option String
  /-- Call `http.Get(url)`; `none` when `err != nil`. -/
  httpGet : String → Option Response
  /-- Call `goquery.NewDocumentFromReader(res.Body)`; `none` when `err != nil`. -/
  newDocument : String → Option Document

/-- The three ways `getUrlHtml` returns an error. -/
inductive FetchError where
  | transport
  | status (code : Nat)
  | parse
deriving DecidableEq, Repr

deriving instance DecidableEq for Except

/-- Function `getUrlHtml` (main.go 23-44). -/
def getUrlHtml (w : Web) (url : String) : Except FetchError Document :=
  match w.httpGet url with
  | none => .error .transport
  | some res =>
    if res.statusCode ≠ 200 then .error (.status res.statusCode)
    else
      match w.newDocument res.body with
      | none => .error .parse
      | some doc => .ok doc

/-! ## State and trace -/

/-- Ghost events, in the order the sequential run produces them. -/
inductive Event where
  /-- An invocation `crawlWithRecursion(inputUrl, baseUrl, depth, _)` started. -/
  | invoke (inputUrl : String) (depth : Int)
  /-- Line 57: `log.Println(err)` after `baseUrl.Parse` failed. -/
  | resolveError (inputUrl : String)
  /-- Line 64: `Not Storing External URL: ...`. -/
  | external (urlAbsString : String)
  /-- Line 76: `getUrlHtml(urlAbsString)` is called (one HTTP GET). -/
  | fetch (urlAbsString : String)
  /-- Line 78: `log.Println(err)` after `getUrlHtml` failed. -/
  | fetchError (urlAbsString : String)
deriving DecidableEq, Repr

/-- The URLs of the `fetch` events of a trace, in order. -/
def fetchedIn (t : List Event) : List String :=
  t.filterMap fun e => match e with
    | .fetch u => some u
    | _ => none

/-- The mutable state of a run: the global map and the ghost trace. -/
structure State where
  crawledLinks : CrawledLinks
  trace : List Event
deriving DecidableEq, Repr

namespace State

/-- The state `main` starts from: `make(map[string]bool)`, nothing traced. -/
def init : State := ⟨[], []⟩

/-- Append one event to the trace. -/
def emit (s : State) (e : Event) : State := { s with trace := s.trace ++ [e] }

/-- Lines 68-73: the check and the store on the global map, between `mu.Lock()`
and `mu.Unlock()`. -/
def record (s : State) (u : String) : State :=
  { s with crawledLinks := s.crawledLinks.record u }

/-- The recorded URLs. -/
def keys (s : State) : List String := s.crawledLinks.keys

/-- The URLs handed to `getUrlHtml`, in order. -/
def fetched (s : State) : List String := fetchedIn s.trace

/-- Extend a state by a piece of trace: every URL fetched in it is recorded
(lines 68-76 record a URL right before fetching it). -/
def replay (s : State) (t : List Event) : State :=
  { crawledLinks := (fetchedIn t).foldl CrawledLinks.record s.crawledLinks
    trace := s.trace ++ t }

end State

/-! ## The crawler -/

/-- Variable `maxDepth` (main.go 20). -/
def maxDepth : Nat := 5

/-- Function `crawlWithRecursion` (main.go 47-102), for a depth that is not
negative. The children are run in the order of `pageUrls`: one schedule of the
goroutines of lines 91-93, so the order of the events is that of this
schedule only. -/
def crawlWithRecursion (w : Web) : Nat → String → State → State
  | 0, inputUrl, s => s.emit (.invoke inputUrl 0)
  | depth + 1, inputUrl, s =>
    let s := s.emit (.invoke inputUrl ((depth + 1 : Nat) : Int))
    match w.resolve inputUrl with
    | none => s.emit (.resolveError inputUrl)
    | some urlAbsString =>
      if !stringsContains urlAbsString w.host then s.emit (.external urlAbsString)
      else
        let s := (s.record urlAbsString).emit (.fetch urlAbsString)
        match getUrlHtml w urlAbsString with
        | .error _ => s.emit (.fetchError urlAbsString)
        | .ok doc =>
          doc.hrefs.foldl (fun st url => crawlWithRecursion w depth url st) s

/-- Function `main` (main.go 104-119) up to the JSON rendering: the map after
the root invocation on `seed`, the string `baseUrl.String()`, with `maxDepth`
from the empty map. -/
def main (w : Web) (seed : String) : CrawledLinks :=
  (crawlWithRecursion w maxDepth seed State.init).crawledLinks

/-- Function `crawlWithRecursion` with the `int` depth of the source and
unbounded recursion made explicit by `fuel`: `none` when the fuel runs out
before the recursion ends. -/
def crawlFuel (w : Web) : Nat → Int → String → State → Option State
  | 0, _, _, _ => none
  | fuel + 1, depth, inputUrl, s =>
    if depth = 0 then some (s.emit (.invoke inputUrl depth))
    else
      let s := s.emit (.invoke inputUrl depth)
      match w.resolve inputUrl with
      | none => some (s.emit (.resolveError inputUrl))
      | some urlAbsString =>
        if !stringsContains urlAbsString w.host then some (s.emit (.external urlAbsString))
        else
          let s := (s.record urlAbsString).emit (.fetch urlAbsString)
          match getUrlHtml w urlAbsString with
          | .error _ => some (s.emit (.fetchError urlAbsString))
          | .ok doc =>
            doc.hrefs.foldlM (fun st url => crawlFuel w fuel (depth - 1) url st) s

/-- Run `step` on each element of a list in turn, threading the state. -/
inductive ForEach (step : String → State → State → Prop) : List String → State → State → Prop
  | nil (s : State) : ForEach step [] s s
  | cons {u : String} {us : List String} {s s1 s2 : State} :
      step u s s1 → ForEach step us s1 s2 → ForEach step (u :: us) s s2

/-- Function `crawlWithRecursion` with the children of a page run in any order:
`CrawlsTo w depth inputUrl s t` holds when `t` is a state in which the
invocation started in `s` can finish. -/
def CrawlsTo (w : Web) : Nat → String → State → State → Prop
  | 0, inputUrl, s, t => t = s.emit (.invoke inputUrl 0)
  | depth + 1, inputUrl, s, t =>
    match w.resolve inputUrl with
    | none => t = (s.emit (.invoke inputUrl ((depth + 1 : Nat) : Int))).emit (.resolveError inputUrl)
    | some urlAbsString =>
      if !stringsContains urlAbsString w.host then
        t = (s.emit (.invoke inputUrl ((depth + 1 : Nat) : Int))).emit (.external urlAbsString)
      else
        match getUrlHtml w urlAbsString with
        | .error _ =>
          t = ((((s.emit (.invoke inputUrl ((depth + 1 : Nat) : Int))).record urlAbsString).emit
                (.fetch urlAbsString)).emit (.fetchError urlAbsString))
        | .ok doc =>
          ∃ order : List String, order.Perm doc.hrefs ∧
            ForEach (fun url st st1 => CrawlsTo w depth url st st1) order
              (((s.emit (.invoke inputUrl ((depth + 1 : Nat) : Int))).record urlAbsString).emit
                (.fetch urlAbsString)) t

/-- The events one invocation produces, read off a run from the initial state. -/
def events (w : Web) (depth : Nat) (inputUrl : String) : List Event :=
  (crawlWithRecursion w depth inputUrl State.init).trace

/-! ## Concrete sites -/

/-- A site given by tables: `links` resolves a raw `href` against the base,
`pages` is what `http.Get` returns for an absolute URL, `docs` lists the anchors
of a body. What is absent from a table is an error. -/
def tableWeb (host : String) (links : List (String × String))
    (pages : List (String × Response)) (docs : List (String × List String)) : Web where
  host := host
  resolve := fun x => links.lookup x
  httpGet := fun u => pages.lookup u
  newDocument := fun b => (docs.lookup b).map Document.mk

/-- Seed `http://example.test/`; `/` links to `/a` and `http://other.test/x`,
`/a` links to `/b`. -/
def exampleWeb : Web :=
  tableWeb "example.test"
    [("http://example.test/", "http://example.test/"), ("/a", "http://example.test/a"),
     ("http://other.test/x", "http://other.test/x"), ("/b", "http://example.test/b")]
    [("http://example.test/", ⟨200, "root"⟩), ("http://example.test/a", ⟨200, "page a"⟩),
     ("http://example.test/b", ⟨200, "page b"⟩)]
    [("root", ["/a", "http://other.test/x"]), ("page a", ["/b"]), ("page b", [])]

/-- The raw links of the chain `seed → a → b → c → d → e → f → g`. -/
def chainLink (i : Nat) : String :=
  ["http://example.test/", "/a", "/b", "/c", "/d", "/e", "/f", "/g"].getD i ""

/-- The absolute URLs of the chain. -/
def chainPage (i : Nat) : String :=
  ["http://example.test/", "http://example.test/a", "http://example.test/b",
   "http://example.test/c", "http://example.test/d", "http://example.test/e",
   "http://example.test/f", "http://example.test/g"].getD i ""

/-- The chain `seed → a → b → c → d → e → f`, every page linking only to the next. -/
def chainWeb : Web :=
  tableWeb "example.test"
    [("http://example.test/", "http://example.test/"), ("/a", "http://example.test/a"),
     ("/b", "http://example.test/b"), ("/c", "http://example.test/c"),
     ("/d", "http://example.test/d"), ("/e", "http://example.test/e"),
     ("/f", "http://example.test/f"), ("/g", "http://example.test/g")]
    [("http://example.test/", ⟨200, "root"⟩), ("http://example.test/a", ⟨200, "page a"⟩),
     ("http://example.test/b", ⟨200, "page b"⟩), ("http://example.test/c", ⟨200, "page c"⟩),
     ("http://example.test/d", ⟨200, "page d"⟩), ("http://example.test/e", ⟨200, "page e"⟩),
     ("http://example.test/f", ⟨200, "page f"⟩), ("http://example.test/g", ⟨200, "page g"⟩)]
    [("root", ["/a"]), ("page a", ["/b"]), ("page b", ["/c"]), ("page c", ["/d"]),
     ("page d", ["/e"]), ("page e", ["/f"]), ("page f", ["/g"]), ("page g", [])]

/-- Seed `http://example.test/` whose page links to `/missing` (HTTP 404), to the
malformed `not a url: with spaces` (`baseUrl.Parse` fails: the first path
segment holds a colon) and to `/ok`, which links to `/deep`. -/
def failWeb : Web :=
  tableWeb "example.test"
    [("http://example.test/", "http://example.test/"),
     ("/missing", "http://example.test/missing"), ("/ok", "http://example.test/ok"),
     ("/deep", "http://example.test/deep")]
    [("http://example.test/", ⟨200, "root"⟩), ("http://example.test/missing", ⟨404, "gone"⟩),
     ("http://example.test/ok", ⟨200, "page ok"⟩), ("http://example.test/deep", ⟨200, "page deep"⟩)]
    [("root", ["/missing", "not a url: with spaces", "/ok"]), ("page ok", ["/deep"]),
     ("page deep", [])]

/-- The run of depth 3 on the seed of `failWeb` that takes the three links of the
seed page in reverse order. -/
def failWebReversed : State :=
  ["/ok", "not a url: with spaces", "/missing"].foldl
    (fun st url => crawlWithRecursion failWeb 2 url st)
    (((State.init.emit (.invoke "http://example.test/" ((2 + 1 : Nat) : Int))).record
      "http://example.test/").emit (.fetch "http://example.test/"))

/-- Seed `http://example.test/` whose page links to a page of another host that
carries the seed's host in its query string. -/
def scopeWeb : Web :=
  tableWeb "example.test"
    [("http://example.test/", "http://example.test/"),
     ("http://other.test/?ref=example.test", "http://other.test/?ref=example.test")]
    [("http://example.test/", ⟨200, "root"⟩),
     ("http://other.test/?ref=example.test", ⟨200, "elsewhere"⟩)]
    [("root", ["http://other.test/?ref=example.test"]), ("elsewhere", [])]

/-- Seed `http://example.test/` whose page links to itself. -/
def selfWeb : Web :=
  tableWeb "example.test"
    [("http://example.test/", "http://example.test/"), ("/", "http://example.test/")]
    [("http://example.test/", ⟨200, "root"⟩)]
    [("root", ["/"])]

/-- What follows the first `://` of a URL. -/
def afterScheme : List Char → List Char
  | [] => []
  | c :: rest =>
    if c = ':' && startsWith rest ['/', '/'] then rest.drop 2
    else afterScheme rest

/-- Field `Host` of an absolute URL `scheme://host/path?query#fragment` without
user information: what stands between `://` and the next `/`, `?` or `#`. -/
def urlHost (u : String) : String :=
  String.mk ((afterScheme u.data).takeWhile fun c => c != '/' && c != '?' && c != '#')

/-- A chain `page 0 → page 1 → ... → page (n + 1)` of distinct pages in scope,
reached through the raw links `link i`, that all resolve and fetch
successfully, each page linking only to the next. -/
def Chain (w : Web) (n : Nat) (link page : Nat → String) : Prop :=
  (∀ i ≤ n + 1, w.resolve (link i) = some (page i)) ∧
  (∀ i ≤ n + 1, stringsContains (page i) w.host = true) ∧
  (∀ i ≤ n, getUrlHtml w (page i) = .ok ⟨[link (i + 1)]⟩) ∧
  (∃ doc, getUrlHtml w (page (n + 1)) = .ok doc) ∧
  (∀ i ≤ n + 1, ∀ j ≤ n + 1, page i = page j → i = j)

/-! # Theorems -/

/-! ## The map -/

theorem CrawledLinks.keys_set (m : CrawledLinks) (k : String) (v : Bool) :
    (m.set k v).keys = if k ∈ m.keys then m.keys else m.keys ++ [k] := by
  induction m with
  | nil => simp [CrawledLinks.set, CrawledLinks.keys]
  | cons p rest ih =>
    obtain ⟨k', v'⟩ := p
    by_cases h : k' = k
    · subst h
      simp [CrawledLinks.set, CrawledLinks.keys]
    · have h' : ¬ k = k' := fun e => h e.symm
      simp only [CrawledLinks.keys] at ih
      simp [CrawledLinks.set, CrawledLinks.keys, h, h', ih]
      split <;> simp

theorem CrawledLinks.mem_keys_of_get (m : CrawledLinks) (k : String) (h : m.get k = true) :
    k ∈ m.keys := by
  induction m with
  | nil => simp [CrawledLinks.get] at h
  | cons p rest ih =>
    obtain ⟨k', v'⟩ := p
    by_cases hk : k' = k
    · simp [CrawledLinks.keys, hk]
    · simp only [CrawledLinks.get, hk, if_false] at h
      have := ih h
      simp only [CrawledLinks.keys] at this
      simp [CrawledLinks.keys, this]

theorem CrawledLinks.get_set_self (m : CrawledLinks) (k : String) (v : Bool) :
    (m.set k v).get k = v := by
  induction m with
  | nil => simp [CrawledLinks.set, CrawledLinks.get]
  | cons p rest ih =>
    obtain ⟨k', v'⟩ := p
    by_cases hk : k' = k
    · simp [CrawledLinks.set, CrawledLinks.get, hk]
    · simp [CrawledLinks.set, CrawledLinks.get, hk, ih]

theorem CrawledLinks.get_set_other (m : CrawledLinks) (k x : String) (v : Bool) (hx : x ≠ k) :
    (m.set k v).get x = m.get x := by
  induction m with
  | nil => simp [CrawledLinks.set, CrawledLinks.get, hx.symm]
  | cons p rest ih =>
    obtain ⟨k', v'⟩ := p
    by_cases hk : k' = k
    · subst hk
      simp [CrawledLinks.set, CrawledLinks.get, hx.symm]
    · by_cases hk' : k' = x
      · subst hk'
        simp [CrawledLinks.set, CrawledLinks.get, hk]
      · simp [CrawledLinks.set, CrawledLinks.get, hk, hk', ih]

/-! ## Recording -/

theorem CrawledLinks.keys_record (m : CrawledLinks) (u : String) :
    (m.record u).keys = if u ∈ m.keys then m.keys else m.keys ++ [u] := by
  unfold CrawledLinks.record
  by_cases h : m.get u = true
  · simp [h, CrawledLinks.mem_keys_of_get _ _ h]
  · simp [h, CrawledLinks.keys_set]

theorem CrawledLinks.mem_keys_record (m : CrawledLinks) (u x : String) :
    x ∈ (m.record u).keys ↔ x ∈ m.keys ∨ x = u := by
  rw [CrawledLinks.keys_record]
  split
  · constructor
    · exact Or.inl
    · rintro (h | rfl) <;> assumption
  · simp

theorem CrawledLinks.nodup_keys_record (m : CrawledLinks) (u : String) (h : m.keys.Nodup) :
    (m.record u).keys.Nodup := by
  rw [CrawledLinks.keys_record]
  split
  · exact h
  · rename_i hu
    exact List.Nodup.append h (List.nodup_singleton u) (by simpa using hu)

theorem CrawledLinks.record_of_get (m : CrawledLinks) (u : String) (h : m.get u = true) :
    m.record u = m := by
  simp [CrawledLinks.record, h]

theorem CrawledLinks.mem_keys_foldl_record (l : List String) (m : CrawledLinks) (x : String) :
    x ∈ (l.foldl CrawledLinks.record m).keys ↔ x ∈ m.keys ∨ x ∈ l := by
  induction l generalizing m with
  | nil => simp
  | cons a l ih =>
    simp only [List.foldl_cons, ih, CrawledLinks.mem_keys_record, List.mem_cons]
    tauto

theorem CrawledLinks.nodup_keys_foldl_record (l : List String) (m : CrawledLinks)
    (h : m.keys.Nodup) : (l.foldl CrawledLinks.record m).keys.Nodup := by
  induction l generalizing m with
  | nil => simpa using h
  | cons a l ih => exact ih _ (CrawledLinks.nodup_keys_record m a h)

theorem CrawledLinks.get_of_mem_keys (m : CrawledLinks) (x : String)
    (hall : ∀ p ∈ m, p.2 = true) (hx : x ∈ m.keys) : m.get x = true := by
  induction m with
  | nil => simp [CrawledLinks.keys] at hx
  | cons p rest ih =>
    obtain ⟨k, v⟩ := p
    by_cases hk : k = x
    · have : v = true := hall (k, v) (by simp)
      simp [CrawledLinks.get, hk, this]
    · have hx1 : x ∈ CrawledLinks.keys rest := by
        simp only [CrawledLinks.keys, List.map_cons, List.mem_cons] at hx
        rcases hx with h | h
        · exact absurd h.symm hk
        · exact h
      simp only [CrawledLinks.get, hk, if_false]
      exact ih (fun p hp => hall p (List.mem_cons_of_mem _ hp)) hx1

theorem CrawledLinks.allTrue_set (m : CrawledLinks) (u : String)
    (hall : ∀ p ∈ m, p.2 = true) : ∀ p ∈ m.set u true, p.2 = true := by
  induction m with
  | nil => simp [CrawledLinks.set]
  | cons q rest ih =>
    obtain ⟨k, v⟩ := q
    have hrest : ∀ p ∈ rest, p.2 = true := fun p hp => hall p (List.mem_cons_of_mem _ hp)
    by_cases hk : k = u
    · intro p hp
      simp only [CrawledLinks.set, hk, if_true, List.mem_cons] at hp
      rcases hp with h | h
      · rw [h]
      · exact hrest p h
    · intro p hp
      simp only [CrawledLinks.set, hk, if_false, List.mem_cons] at hp
      rcases hp with h | h
      · rw [h]; exact hall (k, v) (by simp)
      · exact ih hrest p h

theorem CrawledLinks.allTrue_record (m : CrawledLinks) (u : String)
    (hall : ∀ p ∈ m, p.2 = true) : ∀ p ∈ m.record u, p.2 = true := by
  unfold CrawledLinks.record
  split
  · exact CrawledLinks.allTrue_set m u hall
  · exact hall

theorem CrawledLinks.allTrue_foldl_record (l : List String) (m : CrawledLinks)
    (hall : ∀ p ∈ m, p.2 = true) : ∀ p ∈ l.foldl CrawledLinks.record m, p.2 = true := by
  induction l generalizing m with
  | nil => simpa using hall
  | cons a l ih => exact ih _ (CrawledLinks.allTrue_record m a hall)

/-! ## Replaying a trace -/

theorem fetchedIn_append (t1 t2 : List Event) :
    fetchedIn (t1 ++ t2) = fetchedIn t1 ++ fetchedIn t2 := by
  simp [fetchedIn, List.filterMap_append]

theorem State.replay_nil (s : State) : s.replay [] = s := by
  simp [State.replay, fetchedIn]

theorem State.replay_append (s : State) (t1 t2 : List Event) :
    s.replay (t1 ++ t2) = (s.replay t1).replay t2 := by
  simp [State.replay, fetchedIn_append, List.foldl_append]

theorem foldl_crawl_eq_replay (w : Web) (d : Nat)
    (ih : ∀ u s, crawlWithRecursion w d u s = s.replay (events w d u))
    (l : List String) (s : State) :
    l.foldl (fun st url => crawlWithRecursion w d url st) s
      = s.replay (l.flatMap (events w d)) := by
  induction l generalizing s with
  | nil => simp [State.replay_nil]
  | cons a l ihl =>
    rw [List.foldl_cons, ihl, ih, List.flatMap_cons, State.replay_append]

/-- One invocation at depth `d + 1`, as a replayed trace. -/
theorem crawl_succ_eq_replay (w : Web) (d : Nat)
    (ih : ∀ u s, crawlWithRecursion w d u s = s.replay (events w d u))
    (u : String) (s : State) :
    crawlWithRecursion w (d + 1) u s = s.replay
      (.invoke u ((d + 1 : Nat) : Int) ::
        match w.resolve u with
        | none => [.resolveError u]
        | some a =>
          if !stringsContains a w.host then [.external a]
          else .fetch a ::
            match getUrlHtml w a with
            | .error _ => [.fetchError a]
            | .ok doc => doc.hrefs.flatMap (events w d)) := by
  simp only [crawlWithRecursion]
  cases hr : w.resolve u with
  | none =>
    simp [State.replay, State.emit, fetchedIn]
  | some a =>
    by_cases hc : stringsContains a w.host = true
    · simp only [hc, Bool.not_true, Bool.false_eq_true, if_false]
      cases hg : getUrlHtml w a with
      | error e =>
        simp [State.replay, State.emit, State.record, fetchedIn]
      | ok doc =>
        simp only [foldl_crawl_eq_replay w d ih]
        simp [State.replay, State.emit, State.record, fetchedIn, List.foldl_append]
    · simp [hc, State.replay, State.emit, fetchedIn]

theorem events_zero (w : Web) (u : String) : events w 0 u = [.invoke u 0] := by
  simp [events, crawlWithRecursion, State.emit, State.init]

theorem crawl_eq_replay (w : Web) (d : Nat) :
    ∀ (u : String) (s : State), crawlWithRecursion w d u s = s.replay (events w d u) := by
  induction d with
  | zero =>
    intro u s
    simp [crawlWithRecursion, events, State.replay, State.emit, State.init, fetchedIn]
  | succ d ih =>
    intro u s
    have h0 := crawl_succ_eq_replay w d ih u State.init
    have h1 := crawl_succ_eq_replay w d ih u s
    rw [h1, events, h0]
    simp only [State.replay, State.init, List.nil_append]

/-- The events of one invocation at depth `d + 1`, case by case. -/
theorem events_succ (w : Web) (d : Nat) (u : String) :
    events w (d + 1) u =
      .invoke u ((d + 1 : Nat) : Int) ::
        match w.resolve u with
        | none => [.resolveError u]
        | some a =>
          if !stringsContains a w.host then [.external a]
          else .fetch a ::
            match getUrlHtml w a with
            | .error _ => [.fetchError a]
            | .ok doc => doc.hrefs.flatMap (events w d) := by
  have h0 := crawl_succ_eq_replay w d (crawl_eq_replay w d) u State.init
  rw [events, h0]
  simp only [State.replay, State.init, List.nil_append]

theorem events_succ_ok (w : Web) (d : Nat) (u a : String) (doc : Document)
    (hr : w.resolve u = some a) (hc : stringsContains a w.host = true)
    (hg : getUrlHtml w a = .ok doc) :
    events w (d + 1) u
      = .invoke u ((d + 1 : Nat) : Int) :: .fetch a :: doc.hrefs.flatMap (events w d) := by
  rw [events_succ]; simp [hr, hc, hg]

theorem events_succ_fetchError (w : Web) (d : Nat) (u a : String) (e : FetchError)
    (hr : w.resolve u = some a) (hc : stringsContains a w.host = true)
    (hg : getUrlHtml w a = .error e) :
    events w (d + 1) u = [.invoke u ((d + 1 : Nat) : Int), .fetch a, .fetchError a] := by
  rw [events_succ]; simp [hr, hc, hg]

theorem events_succ_external (w : Web) (d : Nat) (u a : String)
    (hr : w.resolve u = some a) (hc : stringsContains a w.host = false) :
    events w (d + 1) u = [.invoke u ((d + 1 : Nat) : Int), .external a] := by
  rw [events_succ]; simp [hr, hc]

theorem events_succ_resolveError (w : Web) (d : Nat) (u : String)
    (hr : w.resolve u = none) :
    events w (d + 1) u = [.invoke u ((d + 1 : Nat) : Int), .resolveError u] := by
  rw [events_succ]; simp [hr]

/-! ## What one invocation does to the state -/

theorem trace_crawl (w : Web) (d : Nat) (u : String) (s : State) :
    (crawlWithRecursion w d u s).trace = s.trace ++ events w d u := by
  rw [crawl_eq_replay]; rfl

theorem crawledLinks_crawl (w : Web) (d : Nat) (u : String) (s : State) :
    (crawlWithRecursion w d u s).crawledLinks
      = (fetchedIn (events w d u)).foldl CrawledLinks.record s.crawledLinks := by
  rw [crawl_eq_replay]; rfl

theorem mem_keys_crawl (w : Web) (d : Nat) (u : String) (s : State) (x : String) :
    x ∈ (crawlWithRecursion w d u s).keys ↔ x ∈ s.keys ∨ x ∈ fetchedIn (events w d u) := by
  simp only [State.keys, crawledLinks_crawl, CrawledLinks.mem_keys_foldl_record]

theorem nodup_keys_crawl (w : Web) (d : Nat) (u : String) (s : State) (h : s.keys.Nodup) :
    (crawlWithRecursion w d u s).keys.Nodup := by
  simp only [State.keys, crawledLinks_crawl]
  exact CrawledLinks.nodup_keys_foldl_record _ _ h

theorem mem_keys_crawl_init (w : Web) (d : Nat) (u : String) (x : String) :
    x ∈ (crawlWithRecursion w d u State.init).keys ↔ x ∈ fetchedIn (events w d u) := by
  rw [mem_keys_crawl]; simp [State.init, State.keys, CrawledLinks.keys]

theorem mem_fetchedIn (t : List Event) (x : String) : x ∈ fetchedIn t ↔ Event.fetch x ∈ t := by
  induction t with
  | nil => simp [fetchedIn]
  | cons e t ih =>
    simp only [fetchedIn] at ih
    cases e <;> simp [fetchedIn, List.filterMap_cons, ih]

theorem fetchedIn_flatMap (l : List String) (f : String → List Event) :
    fetchedIn (l.flatMap f) = l.flatMap fun c => fetchedIn (f c) := by
  induction l with
  | nil => simp [fetchedIn]
  | cons a l ih => simp [List.flatMap_cons, fetchedIn_append, ih]

/-! ## Fuel -/

theorem foldlM_some (f : State → String → State) (l : List String) (s : State) :
    l.foldlM (fun st url => some (f st url)) s = some (l.foldl f s) := by
  induction l generalizing s with
  | nil => rfl
  | cons a l ih => simp [List.foldlM_cons, ih]

theorem crawlFuel_eq (w : Web) (n : Nat) :
    ∀ fuel, n < fuel → ∀ (u : String) (s : State),
      crawlFuel w fuel (n : Int) u s = some (crawlWithRecursion w n u s) := by
  induction n with
  | zero =>
    intro fuel hf u s
    obtain ⟨f, rfl⟩ : ∃ f, fuel = f + 1 := ⟨fuel - 1, by omega⟩
    simp [crawlFuel, crawlWithRecursion]
  | succ n ih =>
    intro fuel hf u s
    obtain ⟨f, rfl⟩ : ∃ f, fuel = f + 1 := ⟨fuel - 1, by omega⟩
    have hne : ((n + 1 : Nat) : Int) ≠ 0 := by omega
    have hsub : ((n + 1 : Nat) : Int) - 1 = (n : Int) := by omega
    have hrec : (fun st url => crawlFuel w f (n : Int) url st)
        = fun st url => some (crawlWithRecursion w n url st) := by
      funext st url
      exact ih f (by omega) url st
    simp only [crawlFuel, crawlWithRecursion, if_neg hne, hsub, hrec, foldlM_some]
    cases w.resolve u with
    | none => rfl
    | some a =>
      by_cases hc : stringsContains a w.host = true
      · simp only [hc, Bool.not_true, Bool.false_eq_true, if_false]
        cases getUrlHtml w a <;> rfl
      · simp [hc]

/-! ## Events of an invocation -/

theorem invoke_mem_events (w : Web) (d : Nat) (u : String) :
    Event.invoke u (d : Int) ∈ events w d u := by
  cases d with
  | zero => simp [events_zero]
  | succ d => rw [events_succ]; simp

theorem invoke_depth_le (w : Web) (n : Nat) :
    ∀ (u x : String) (k : Int), Event.invoke x k ∈ events w n u → 0 ≤ k ∧ k ≤ n := by
  induction n with
  | zero =>
    intro u x k h
    simp [events_zero] at h
    omega
  | succ n ih =>
    intro u x k h
    rw [events_succ] at h
    rcases List.mem_cons.1 h with h | h
    · injection h with _ hk
      omega
    · cases hr : w.resolve u with
      | none => simp [hr] at h
      | some a =>
        by_cases hc : stringsContains a w.host = true
        · simp only [hr, hc, Bool.not_true, Bool.false_eq_true, if_false] at h
          rcases List.mem_cons.1 h with h | h
          · cases h
          · cases hg : getUrlHtml w a with
            | error e => simp [hg] at h
            | ok doc =>
              simp only [hg, List.mem_flatMap] at h
              obtain ⟨c, -, hc⟩ := h
              have := ih c x k hc
              omega
        · simp [hr, hc] at h

theorem fetch_mem_events (w : Web) (d : Nat) (u a : String)
    (hr : w.resolve u = some a) (hc : stringsContains a w.host = true) :
    Event.fetch a ∈ events w (d + 1) u := by
  rw [events_succ]; simp [hr, hc]

theorem child_events_sublist (w : Web) (d : Nat) (u a : String) (doc : Document)
    (hr : w.resolve u = some a) (hc : stringsContains a w.host = true)
    (hg : getUrlHtml w a = .ok doc) (c : String) (hmem : c ∈ doc.hrefs) (e : Event)
    (he : e ∈ events w d c) : e ∈ events w (d + 1) u := by
  rw [events_succ_ok w d u a doc hr hc hg]
  simp only [List.mem_cons, List.mem_flatMap]
  exact Or.inr (Or.inr ⟨c, hmem, he⟩)

theorem foldl_state_record (l : List String) (s : State) :
    (l.foldl State.record s).crawledLinks = l.foldl CrawledLinks.record s.crawledLinks := by
  induction l generalizing s with
  | nil => rfl
  | cons a l ih => simp [List.foldl_cons, ih, State.record]

theorem CrawledLinks.get_record_of_get (m : CrawledLinks) (u x : String)
    (h : m.get x = true) : (m.record u).get x = true := by
  unfold CrawledLinks.record
  by_cases hu : m.get u = true
  · simpa [hu] using h
  · by_cases hx : x = u
    · subst hx; exact absurd h hu
    · simp [hu, CrawledLinks.get_set_other _ _ _ _ hx, h]

theorem CrawledLinks.get_foldl_record_of_get (l : List String) (m : CrawledLinks) (x : String)
    (h : m.get x = true) : (l.foldl CrawledLinks.record m).get x = true := by
  induction l generalizing m with
  | nil => simpa using h
  | cons a l ih => exact ih _ (CrawledLinks.get_record_of_get m a x h)

/-- What every step of a run preserves: keys stay, keys read `true` stay so,
and keys without duplicates stay without duplicates. -/
theorem grows_record (s : State) (u : String) :
    (∀ x, x ∈ s.keys → x ∈ (s.record u).keys) ∧
    (∀ x, s.crawledLinks.get x = true → (s.record u).crawledLinks.get x = true) ∧
    (s.keys.Nodup → (s.record u).keys.Nodup) := by
  refine ⟨?_, ?_, ?_⟩
  · intro x hx
    exact (CrawledLinks.mem_keys_record _ _ _).2 (Or.inl hx)
  · intro x hx
    exact CrawledLinks.get_record_of_get _ _ _ hx
  · exact CrawledLinks.nodup_keys_record _ _

theorem foldlM_grows (f : State → String → Option State)
    (hf : ∀ s u t, f s u = some t →
      (∀ x, x ∈ s.keys → x ∈ t.keys) ∧
      (∀ x, s.crawledLinks.get x = true → t.crawledLinks.get x = true) ∧
      (s.keys.Nodup → t.keys.Nodup))
    (l : List String) (s t : State) (h : l.foldlM f s = some t) :
    (∀ x, x ∈ s.keys → x ∈ t.keys) ∧
    (∀ x, s.crawledLinks.get x = true → t.crawledLinks.get x = true) ∧
    (s.keys.Nodup → t.keys.Nodup) := by
  induction l generalizing s with
  | nil =>
    simp only [List.foldlM_nil] at h
    cases h
    exact ⟨fun _ hx => hx, fun _ hx => hx, fun hn => hn⟩
  | cons a l ih =>
    simp only [List.foldlM_cons] at h
    cases hfa : f s a with
    | none => simp [hfa] at h
    | some s1 =>
      simp only [hfa] at h
      obtain ⟨a1, a2, a3⟩ := hf s a s1 hfa
      obtain ⟨b1, b2, b3⟩ := ih s1 h
      exact ⟨fun x hx => b1 x (a1 x hx), fun x hx => b2 x (a2 x hx), fun hn => b3 (a3 hn)⟩

/-- Whatever the `int` depth, negative included, a fuelled run that returns has
kept every key, every key read `true`, and the absence of duplicates. -/
theorem crawlFuel_grows (w : Web) (fuel : Nat) :
    ∀ (depth : Int) (u : String) (s t : State), crawlFuel w fuel depth u s = some t →
      (∀ x, x ∈ s.keys → x ∈ t.keys) ∧
      (∀ x, s.crawledLinks.get x = true → t.crawledLinks.get x = true) ∧
      (s.keys.Nodup → t.keys.Nodup) := by
  induction fuel with
  | zero => intro depth u s t h; simp [crawlFuel] at h
  | succ fuel ih =>
    intro depth u s t h
    simp only [crawlFuel] at h
    by_cases hd : depth = 0
    · simp only [hd, if_true, Option.some.injEq] at h
      subst h
      exact ⟨fun _ hx => hx, fun _ hx => hx, fun hn => hn⟩
    · simp only [hd, if_false] at h
      cases hr : w.resolve u with
      | none =>
        simp only [hr, Option.some.injEq] at h
        subst h
        exact ⟨fun _ hx => hx, fun _ hx => hx, fun hn => hn⟩
      | some a =>
        by_cases hc : stringsContains a w.host = true
        · simp only [hr, hc, Bool.not_true, Bool.false_eq_true, if_false] at h
          have hrec := grows_record (s.emit (.invoke u depth)) a
          cases hg : getUrlHtml w a with
          | error e =>
            simp only [hg, Option.some.injEq] at h
            subst h
            exact hrec
          | ok doc =>
            simp only [hg] at h
            obtain ⟨b1, b2, b3⟩ := foldlM_grows _ (fun s1 c t1 h1 => ih (depth - 1) c s1 t1 h1)
              _ _ t h
            obtain ⟨a1, a2, a3⟩ := hrec
            exact ⟨fun x hx => b1 x (a1 x hx), fun x hx => b2 x (a2 x hx), fun hn => b3 (a3 hn)⟩
        · have hc' : stringsContains a w.host = false := by simpa using hc
          simp only [hr, hc', Bool.not_false, if_true, Option.some.injEq] at h
          subst h
          exact ⟨fun _ hx => hx, fun _ hx => hx, fun hn => hn⟩

theorem fetch_mem_iff_invoked (w : Web) (d : Nat) :
    ∀ (u x : String), Event.fetch x ∈ events w d u ↔
      ∃ link k, Event.invoke link k ∈ events w d u ∧ 0 < k ∧
        w.resolve link = some x ∧ stringsContains x w.host = true := by
  induction d with
  | zero =>
    intro u x
    simp only [events_zero, List.mem_singleton]
    constructor
    · intro h; cases h
    · rintro ⟨link, k, h, hk, -, -⟩
      injection h with _ h0
      omega
  | succ d ih =>
    intro u x
    constructor
    · intro h
      rw [events_succ] at h
      rcases List.mem_cons.1 h with h | h
      · cases h
      · cases hr : w.resolve u with
        | none => simp [hr] at h
        | some a =>
          by_cases hc : stringsContains a w.host = true
          · simp only [hr, hc, Bool.not_true, Bool.false_eq_true, if_false] at h
            rcases List.mem_cons.1 h with h | h
            · injection h with hxa
              subst hxa
              exact ⟨u, ((d + 1 : Nat) : Int), invoke_mem_events w (d + 1) u, by omega, hr, hc⟩
            · cases hg : getUrlHtml w a with
              | error e => simp [hg] at h
              | ok doc =>
                simp only [hg, List.mem_flatMap] at h
                obtain ⟨c, hcm, hx⟩ := h
                obtain ⟨link, k, hi, hk, hres, hsc⟩ := (ih c x).1 hx
                exact ⟨link, k, child_events_sublist w d u a doc hr hc hg c hcm _ hi, hk, hres, hsc⟩
          · simp [hr, hc] at h
    · rintro ⟨link, k, h, hk, hres, hsc⟩
      rw [events_succ] at h
      rcases List.mem_cons.1 h with h | h
      · injection h with hl _
        subst hl
        exact fetch_mem_events w d link x hres hsc
      · cases hr : w.resolve u with
        | none => simp [hr] at h
        | some a =>
          by_cases hc : stringsContains a w.host = true
          · simp only [hr, hc, Bool.not_true, Bool.false_eq_true, if_false] at h
            rcases List.mem_cons.1 h with h | h
            · cases h
            · cases hg : getUrlHtml w a with
              | error e => simp [hg] at h
              | ok doc =>
                simp only [hg, List.mem_flatMap] at h
                obtain ⟨c, hcm, hx⟩ := h
                exact child_events_sublist w d u a doc hr hc hg c hcm _
                  ((ih c x).2 ⟨link, k, hx, hk, hres, hsc⟩)
          · simp [hr, hc] at h

/-! ## Chains and the depth bound -/

theorem chain_fetched (w : Web) (n : Nat) (link page : Nat → String)
    (h : Chain w n link page) :
    ∀ d k, k + d ≤ n + 1 →
      fetchedIn (events w d (link k)) = (List.range d).map fun i => page (k + i) := by
  obtain ⟨hres, hscope, hdoc, -, -⟩ := h
  intro d
  induction d with
  | zero => intro k _; simp [events_zero, fetchedIn]
  | succ d ih =>
    intro k hk
    have hk1 : k ≤ n := by omega
    rw [events_succ_ok w d (link k) (page k) ⟨[link (k + 1)]⟩ (hres k (by omega))
      (hscope k (by omega)) (hdoc k hk1)]
    have := ih (k + 1) (by omega)
    simp only [fetchedIn] at this
    simp only [fetchedIn, List.filterMap_cons, List.flatMap_cons, List.flatMap_nil,
      List.append_nil, this, List.range_succ_eq_map, List.map_cons, List.map_map]
    simp [Function.comp_def, Nat.add_assoc, Nat.add_comm 1]

theorem chain_mem_keys (w : Web) (n : Nat) (link page : Nat → String)
    (h : Chain w n link page) (i : Nat) (hi : i ≤ n + 1) :
    page i ∈ (crawlWithRecursion w n (link 0) State.init).keys ↔ i < n := by
  rw [mem_keys_crawl_init, chain_fetched w n link page h n 0 (by omega)]
  obtain ⟨-, -, -, -, hinj⟩ := h
  simp only [List.mem_map, List.mem_range, Nat.zero_add]
  constructor
  · rintro ⟨j, hj, hji⟩
    have := hinj j (by omega) i hi hji
    omega
  · intro hlt
    exact ⟨i, hlt, rfl⟩

theorem chainWeb_chain : Chain chainWeb 5 chainLink chainPage := by
  refine ⟨by decide, by decide, by decide, ⟨⟨["/g"]⟩, by decide⟩, by decide⟩

/-- Claim C1 as stated fails: on the chain `seed → a → b → c → d → e → f`, whose
pages are distinct, in scope and all fetched successfully, a run with depth 5
does not record `e`, the fifth page after the seed. -/
theorem depth_bound_as_stated_fails :
    Chain chainWeb 5 chainLink chainPage ∧
    ¬ ((∀ i, 1 ≤ i → i ≤ 5 →
          chainPage i ∈ (crawlWithRecursion chainWeb 5 (chainLink 0) State.init).keys) ∧
        chainPage 6 ∉ (crawlWithRecursion chainWeb 5 (chainLink 0) State.init).keys) := by
  refine ⟨chainWeb_chain, ?_⟩
  rintro ⟨h, -⟩
  have h5 := h 5 (by decide) (by decide)
  revert h5
  decide

/-- Claim C1, amended: for every `n` and every chain `page 0 → ... → page (n + 1)` of
distinct in-scope pages that resolve and fetch successfully, each linking only
to the next, a run on the seed `link 0` with depth `n` from the empty state
records `page i` exactly when `i < n`: the seed and the first `n - 1` pages
after it, and neither `page n` nor `page (n + 1)`. -/
theorem depth_bound_chain (w : Web) (n : Nat) (link page : Nat → String)
    (h : Chain w n link page) :
    (∀ i, i < n → page i ∈ (crawlWithRecursion w n (link 0) State.init).keys) ∧
    page n ∉ (crawlWithRecursion w n (link 0) State.init).keys ∧
    page (n + 1) ∉ (crawlWithRecursion w n (link 0) State.init).keys := by
  refine ⟨fun i hi => (chain_mem_keys w n link page h i (by omega)).2 hi, ?_, ?_⟩
  · rw [chain_mem_keys w n link page h n (by omega)]; omega
  · rw [chain_mem_keys w n link page h (n + 1) (by omega)]; omega

/-- The chain `seed → a → ... → f` with depth 5: the seed and `a`, `b`, `c`, `d`
are recorded, `e` and `f` are not. -/
theorem depth_bound_chain_witness :
    Chain chainWeb 5 chainLink chainPage ∧
    ((∀ i, i < 5 → chainPage i ∈ (crawlWithRecursion chainWeb 5 (chainLink 0) State.init).keys) ∧
      chainPage 5 ∉ (crawlWithRecursion chainWeb 5 (chainLink 0) State.init).keys ∧
      chainPage (5 + 1) ∉ (crawlWithRecursion chainWeb 5 (chainLink 0) State.init).keys) :=
  ⟨chainWeb_chain, depth_bound_chain chainWeb 5 chainLink chainPage chainWeb_chain⟩

/-! ## The end-to-end example -/

/-- Claim C3 as stated fails: with seed `http://example.test/` and depth 2 the final
map is not the set of `/`, `/a` and `/b`: `/b` is missing. -/
theorem end_to_end_as_stated_fails :
    ¬ ((∀ x, x ∈ (crawlWithRecursion exampleWeb 2 "http://example.test/" State.init).keys ↔
          x ∈ ["http://example.test/", "http://example.test/a", "http://example.test/b"]) ∧
        "http://other.test/x" ∉
          (crawlWithRecursion exampleWeb 2 "http://example.test/" State.init).keys) := by
  rintro ⟨h, -⟩
  have hb := (h "http://example.test/b").2 (by simp)
  revert hb
  decide

/-- Claim C3, amended: with seed `http://example.test/`, depth 2 and the empty initial
map, the final map holds exactly `http://example.test/` and
`http://example.test/a`; `http://example.test/b` and `http://other.test/x` are
not in it, and the second is reported as external. With depth 3 the final map
holds exactly `/`, `/a` and `/b`. -/
theorem end_to_end_example :
    (crawlWithRecursion exampleWeb 2 "http://example.test/" State.init).crawledLinks
      = [("http://example.test/", true), ("http://example.test/a", true)] ∧
    "http://example.test/b" ∉
      (crawlWithRecursion exampleWeb 2 "http://example.test/" State.init).keys ∧
    "http://other.test/x" ∉
      (crawlWithRecursion exampleWeb 2 "http://example.test/" State.init).keys ∧
    Event.external "http://other.test/x" ∈
      (crawlWithRecursion exampleWeb 2 "http://example.test/" State.init).trace ∧
    (crawlWithRecursion exampleWeb 3 "http://example.test/" State.init).crawledLinks
      = [("http://example.test/", true), ("http://example.test/a", true),
         ("http://example.test/b", true)] := by
  refine ⟨by decide, by decide, by decide, by decide, by decide⟩

/-! ## Scoping -/

/-- Every URL recorded by a run from the empty map holds the seed host somewhere
in its text: this is what the test of line 63 ensures. -/
theorem recorded_contains_host (w : Web) (d : Nat) (u x : String)
    (h : x ∈ (crawlWithRecursion w d u State.init).keys) : stringsContains x w.host = true := by
  rw [mem_keys_crawl_init, mem_fetchedIn, fetch_mem_iff_invoked] at h
  obtain ⟨_, _, _, _, _, hc⟩ := h
  exact hc

/-- Claim C2 at the failing input: the seed page links to
`http://other.test/?ref=example.test`, whose host is `other.test`; `main`
records it in the map, and the run fetches it. -/
theorem other_host_recorded :
    scopeWeb.host = urlHost "http://example.test/" ∧
    urlHost "http://other.test/?ref=example.test" ≠ scopeWeb.host ∧
    "http://other.test/?ref=example.test" ∈
      (main scopeWeb "http://example.test/").keys ∧
    "http://other.test/?ref=example.test" ∈
      (crawlWithRecursion scopeWeb maxDepth "http://example.test/" State.init).fetched := by
  refine ⟨by decide, by decide, by decide, by decide⟩

/-! ## Failed links -/

/-- Claim C4 as stated fails: the seed page links to `/missing`, whose fetch
returns HTTP 404 every time; `main` still records
`http://example.test/missing`. -/
theorem failed_fetch_is_recorded :
    getUrlHtml failWeb "http://example.test/missing" = .error (.status 404) ∧
    "http://example.test/missing" ∈ (main failWeb "http://example.test/").keys := by
  refine ⟨by decide, by decide⟩

/-- Claim C4, amended: an invocation whose URL resolution fails leaves the map
unchanged; an invocation whose fetch fails (transport error, non-200 status or
parse error) has recorded its URL before the fetch and adds nothing else; and
after a run from the empty map a URL is in the map exactly when some
invocation with non-zero depth resolved its link to that URL and the URL
passed the scope check. -/
theorem failed_links (w : Web) (d : Nat) (u : String) (s : State) :
    (w.resolve u = none → (crawlWithRecursion w d u s).crawledLinks = s.crawledLinks) ∧
    (∀ a e, w.resolve u = some a → stringsContains a w.host = true →
        getUrlHtml w a = .error e →
        (crawlWithRecursion w (d + 1) u s).crawledLinks = s.crawledLinks.record a ∧
        a ∈ (crawlWithRecursion w (d + 1) u s).keys) ∧
    (∀ x, x ∈ (crawlWithRecursion w d u State.init).keys ↔
        ∃ link k, Event.invoke link k ∈ (crawlWithRecursion w d u State.init).trace ∧ 0 < k ∧
          w.resolve link = some x ∧ stringsContains x w.host = true) := by
  refine ⟨?_, ?_, ?_⟩
  · intro hr
    rw [crawledLinks_crawl]
    cases d with
    | zero => simp [events_zero, fetchedIn]
    | succ d => simp [events_succ_resolveError w d u hr, fetchedIn]
  · intro a e hr hc hg
    have h1 : (crawlWithRecursion w (d + 1) u s).crawledLinks = s.crawledLinks.record a := by
      rw [crawledLinks_crawl, events_succ_fetchError w d u a e hr hc hg]
      simp [fetchedIn]
    refine ⟨h1, ?_⟩
    rw [State.keys, h1, CrawledLinks.mem_keys_record]
    exact Or.inr rfl
  · intro x
    rw [mem_keys_crawl_init, mem_fetchedIn, fetch_mem_iff_invoked, trace_crawl]
    simp [State.init]

/-- On the site of `failWeb`: the malformed link leaves the map as it is, the
404 page is recorded, and `/deep` is recorded through the invocation of `/deep`
at depth 3. -/
theorem failed_links_witness :
    (crawlWithRecursion failWeb 4 "not a url: with spaces" State.init).crawledLinks = [] ∧
    (crawlWithRecursion failWeb (3 + 1) "/missing" State.init).crawledLinks
      = [("http://example.test/missing", true)] ∧
    "http://example.test/deep" ∈
      (crawlWithRecursion failWeb 5 "http://example.test/" State.init).keys := by
  refine ⟨?_, ?_, ?_⟩
  · exact (failed_links failWeb 4 "not a url: with spaces" State.init).1 (by decide)
  · exact ((failed_links failWeb 3 "/missing" State.init).2.1 "http://example.test/missing"
      (.status 404) (by decide) (by decide) (by decide)).1
  · exact ((failed_links failWeb 5 "http://example.test/" State.init).2.2
      "http://example.test/deep").2 ⟨"/deep", 3, by decide, by decide, by decide, by decide⟩

/-! ## Sibling isolation -/

/-- Claim C5: for a page expanded with depth `d + 2`, whatever its other links do (in
particular when one of them does not resolve or fails to fetch), the parent
invocation completes, and every child link that resolves to an in-scope URL is
recorded and fetched, and when its fetch succeeds each of its own links is
invoked with depth `d`. -/
theorem sibling_isolation (w : Web) (d : Nat) (parent P : String) (doc : Document)
    (s : State)
    (hres : w.resolve parent = some P) (hscope : stringsContains P w.host = true)
    (hdoc : getUrlHtml w P = .ok doc) :
    crawlFuel w (d + 3) ((d + 2 : Nat) : Int) parent s
      = some (crawlWithRecursion w (d + 2) parent s) ∧
    (crawlWithRecursion w (d + 2) parent s).trace = s.trace ++ events w (d + 2) parent ∧
    ∀ c ∈ doc.hrefs, ∀ C, w.resolve c = some C → stringsContains C w.host = true →
      C ∈ (crawlWithRecursion w (d + 2) parent s).keys ∧
      Event.fetch C ∈ events w (d + 2) parent ∧
      ∀ cdoc, getUrlHtml w C = .ok cdoc →
        ∀ g ∈ cdoc.hrefs, Event.invoke g (d : Int) ∈ events w (d + 2) parent := by
  refine ⟨crawlFuel_eq w (d + 2) (d + 3) (by omega) parent s, trace_crawl w _ _ _, ?_⟩
  intro c hcm C hcr hcs
  have hfetch : Event.fetch C ∈ events w (d + 2) parent :=
    child_events_sublist w (d + 1) parent P doc hres hscope hdoc c hcm _
      (fetch_mem_events w d c C hcr hcs)
  refine ⟨?_, hfetch, ?_⟩
  · rw [mem_keys_crawl, mem_fetchedIn]
    exact Or.inr hfetch
  · intro cdoc hcd g hg
    exact child_events_sublist w (d + 1) parent P doc hres hscope hdoc c hcm _
      (child_events_sublist w d c C cdoc hcr hcs hcd g hg _ (invoke_mem_events w d g))

/-- On the site of `failWeb` with depth 5: next to the malformed link and the 404
link `/missing`, the sibling `/ok` is recorded and fetched and its link `/deep`
is invoked with depth 3. -/
theorem sibling_isolation_witness :
    failWeb.resolve "not a url: with spaces" = none ∧
    getUrlHtml failWeb "http://example.test/missing" = .error (.status 404) ∧
    crawlFuel failWeb (3 + 3) ((3 + 2 : Nat) : Int) "http://example.test/" State.init
      = some (crawlWithRecursion failWeb (3 + 2) "http://example.test/" State.init) ∧
    "http://example.test/ok" ∈
      (crawlWithRecursion failWeb (3 + 2) "http://example.test/" State.init).keys ∧
    Event.invoke "/deep" 3 ∈ events failWeb (3 + 2) "http://example.test/" := by
  have h := sibling_isolation failWeb 3 "http://example.test/" "http://example.test/"
    ⟨["/missing", "not a url: with spaces", "/ok"]⟩ State.init (by decide) (by decide)
    (by decide)
  have hok := h.2.2 "/ok" (by decide) "http://example.test/ok" (by decide) (by decide)
  exact ⟨by decide, by decide, h.1, hok.1, hok.2.2 ⟨["/deep"]⟩ (by decide) "/deep" (by decide)⟩

/-! ## The map only grows -/

/-- Claim C6: one invocation keeps every URL that was in the map (as a key, and
as a key read `true`); recording a URL that reads `true` leaves the state as
it is; the keys stay free of duplicates; any number `n + 1` of recordings of
the same URL, or of child tasks that all resolve to it, leave exactly one
entry for it; the same growth holds for the fuelled run at every `int`
depth, negative included, whenever it returns; and in a map that stores only
`true`, as every map reached from the empty one does, recording any key
leaves the state as it is. -/
theorem crawl_state_grows (w : Web) (d : Nat) (u : String) (s : State) :
    (∀ x, x ∈ s.keys → x ∈ (crawlWithRecursion w d u s).keys) ∧
    (∀ x, s.crawledLinks.get x = true →
        (crawlWithRecursion w d u s).crawledLinks.get x = true) ∧
    (∀ x, s.crawledLinks.get x = true → s.record x = s) ∧
    (s.keys.Nodup → (crawlWithRecursion w d u s).keys.Nodup) ∧
    (∀ n x, s.keys.Nodup →
        ((List.replicate (n + 1) x).foldl State.record s).keys.count x = 1) ∧
    (∀ n a c C, s.keys.Nodup → w.resolve u = some a → stringsContains a w.host = true →
        getUrlHtml w a = .ok ⟨List.replicate (n + 1) c⟩ →
        w.resolve c = some C → stringsContains C w.host = true →
        (crawlWithRecursion w (d + 2) u s).keys.count C = 1) ∧
    (∀ fuel (depth : Int) t, crawlFuel w fuel depth u s = some t →
        (∀ x, x ∈ s.keys → x ∈ t.keys) ∧ (s.keys.Nodup → t.keys.Nodup)) ∧
    ((∀ p ∈ s.crawledLinks, p.2 = true) →
        (∀ x, x ∈ s.keys → s.record x = s) ∧
        ∀ p ∈ (crawlWithRecursion w d u s).crawledLinks, p.2 = true) := by
  refine ⟨?_, ?_, ?_, ?_, ?_, ?_, ?_, ?_⟩
  · intro x hx
    exact (mem_keys_crawl w d u s x).2 (Or.inl hx)
  · intro x hx
    rw [crawledLinks_crawl]
    exact CrawledLinks.get_foldl_record_of_get _ _ x hx
  · intro x hx
    simp [State.record, CrawledLinks.record_of_get _ _ hx]
  · exact nodup_keys_crawl w d u s
  · intro n x hs
    apply List.count_eq_one_of_mem
    · rw [State.keys, foldl_state_record]
      exact CrawledLinks.nodup_keys_foldl_record _ _ hs
    · rw [State.keys, foldl_state_record, CrawledLinks.mem_keys_foldl_record]
      exact Or.inr (by simp)
  · intro n a c C hs hr hc hg hcr hcs
    apply List.count_eq_one_of_mem (nodup_keys_crawl w (d + 2) u s hs)
    rw [mem_keys_crawl, mem_fetchedIn]
    exact Or.inr (child_events_sublist w (d + 1) u a _ hr hc hg c (by simp) _
      (fetch_mem_events w d c C hcr hcs))
  · intro fuel depth t h
    obtain ⟨h1, -, h3⟩ := crawlFuel_grows w fuel depth u s t h
    exact ⟨h1, h3⟩
  · intro hall
    refine ⟨?_, ?_⟩
    · intro x hx
      simp [State.record,
        CrawledLinks.record_of_get _ _ (CrawledLinks.get_of_mem_keys _ x hall hx)]
    · rw [crawledLinks_crawl]
      exact CrawledLinks.allTrue_foldl_record _ _ hall

/-- A thousand recordings of `http://example.test/a` into the empty map leave
one entry, and so do a thousand child tasks of a page that links a thousand
times to `/a`. -/
theorem crawl_state_grows_witness :
    ((List.replicate (999 + 1) "http://example.test/a").foldl State.record State.init).keys.count
      "http://example.test/a" = 1 ∧
    (crawlWithRecursion
      (tableWeb "example.test"
        [("http://example.test/", "http://example.test/"), ("/a", "http://example.test/a")]
        [("http://example.test/", ⟨200, "root"⟩)] [("root", List.replicate (999 + 1) "/a")])
      (0 + 2) "http://example.test/" State.init).keys.count "http://example.test/a" = 1 := by
  refine ⟨?_, ?_⟩
  · exact (crawl_state_grows exampleWeb 0 "" State.init).2.2.2.2.1 999 "http://example.test/a"
      (by decide)
  · exact (crawl_state_grows _ 0 "http://example.test/" State.init).2.2.2.2.2.1 999
      "http://example.test/" "/a" "http://example.test/a" (by decide) (by decide) (by decide)
      rfl (by decide) (by decide)

/-! ## Termination -/

/-- Claim C7 as stated fails: on the self-linking seed of `selfWeb` the run with
depth 0 ends (fuel 1 is enough) and the final map does not hold the seed: it
is empty. -/
theorem self_link_depth_zero_not_recorded :
    selfWeb.resolve "http://example.test/" = some "http://example.test/" ∧
    getUrlHtml selfWeb "http://example.test/" = .ok ⟨["/"]⟩ ∧
    selfWeb.resolve "/" = some "http://example.test/" ∧
    crawlFuel selfWeb 1 0 "http://example.test/" State.init
      = some (crawlWithRecursion selfWeb 0 "http://example.test/" State.init) ∧
    ¬ ((crawlWithRecursion selfWeb 0 "http://example.test/" State.init).keys.count
        "http://example.test/" = 1) ∧
    (crawlWithRecursion selfWeb 0 "http://example.test/" State.init).crawledLinks = [] := by
  refine ⟨by decide, by decide, by decide, by decide, by decide, by decide⟩

/-- Claim C7, amended: for every depth `n ≥ 0` the recursion ends: with any fuel
above `n` the fuelled run of the source (depth of type `int`) returns, and
returns the state of `crawlWithRecursion`; every invocation of the run has a
depth between `0` and `n`, and the children of a page expanded with depth
`n + 1` are invoked with depth `n`; for `n ≥ 1` a seed that resolves and
passes the scope test of line 63, self-linking or not, is in the final map of
a run from the empty map exactly once; for `n = 0` the invocation returns
before the store and the final map is empty. -/
theorem crawl_terminates (w : Web) (n : Nat) (u : String) (s : State) :
    (∀ fuel, n < fuel →
        crawlFuel w fuel (n : Int) u s = some (crawlWithRecursion w n u s)) ∧
    (∀ x k, Event.invoke x k ∈ events w n u → 0 ≤ k ∧ k ≤ n) ∧
    (∀ a doc, w.resolve u = some a → stringsContains a w.host = true →
        getUrlHtml w a = .ok doc →
        ∀ c ∈ doc.hrefs, Event.invoke c (n : Int) ∈ events w (n + 1) u) ∧
    (∀ a, 0 < n → w.resolve u = some a → stringsContains a w.host = true →
        (crawlWithRecursion w n u State.init).keys.count a = 1) ∧
    (n = 0 → (crawlWithRecursion w n u State.init).crawledLinks = [] ∧
        (crawlWithRecursion w n u s).crawledLinks = s.crawledLinks) := by
  refine ⟨fun fuel hf => crawlFuel_eq w n fuel hf u s, invoke_depth_le w n u, ?_, ?_, ?_⟩
  · intro a doc hr hc hg c hcm
    exact child_events_sublist w n u a doc hr hc hg c hcm _ (invoke_mem_events w n c)
  · intro a hn hr hc
    obtain ⟨m, rfl⟩ : ∃ m, n = m + 1 := ⟨n - 1, by omega⟩
    apply List.count_eq_one_of_mem
    · exact nodup_keys_crawl w _ u State.init (by simp [State.init, State.keys, CrawledLinks.keys])
    · rw [mem_keys_crawl_init, mem_fetchedIn]
      exact fetch_mem_events w m u a hr hc
  · intro hn
    subst hn
    exact ⟨rfl, rfl⟩

/-- The self-linking seed of `selfWeb`: with depth 5 the run returns with fuel 6
and the final map holds the seed once; with depth 0 the final map is empty. -/
theorem crawl_terminates_witness :
    crawlFuel selfWeb 6 ((5 : Nat) : Int) "http://example.test/" State.init
      = some (crawlWithRecursion selfWeb 5 "http://example.test/" State.init) ∧
    Event.invoke "/" ((4 : Nat) : Int) ∈ events selfWeb (4 + 1) "http://example.test/" ∧
    (crawlWithRecursion selfWeb 5 "http://example.test/" State.init).keys.count
      "http://example.test/" = 1 ∧
    (crawlWithRecursion selfWeb 0 "http://example.test/" State.init).crawledLinks = [] := by
  have h := crawl_terminates selfWeb 5 "http://example.test/" State.init
  have h4 := crawl_terminates selfWeb 4 "http://example.test/" State.init
  have h0 := crawl_terminates selfWeb 0 "http://example.test/" State.init
  exact ⟨h.1 6 (by decide),
    h4.2.2.1 "http://example.test/" ⟨["/"]⟩ (by decide) (by decide) (by decide) "/" (by decide),
    h.2.2.2.1 "http://example.test/" (by decide) (by decide) (by decide),
    (h0.2.2.2.2 rfl).1⟩

/-! ## Sibling order -/

theorem forEach_foldl (step : String → State → State → Prop) (f : State → String → State)
    (hf : ∀ u s, step u s (f s u)) (l : List String) (s : State) :
    ForEach step l s (l.foldl f s) := by
  induction l generalizing s with
  | nil => exact ForEach.nil s
  | cons a l ih => exact ForEach.cons (hf a s) (ih (f s a))

theorem crawlsTo_succ_ok (w : Web) (d : Nat) (u a : String) (doc : Document)
    (order : List String) (s t : State)
    (hr : w.resolve u = some a) (hc : stringsContains a w.host = true)
    (hg : getUrlHtml w a = .ok doc) (hp : order.Perm doc.hrefs)
    (h : ForEach (fun url st st1 => CrawlsTo w d url st st1) order
      (((s.emit (.invoke u ((d + 1 : Nat) : Int))).record a).emit (.fetch a)) t) :
    CrawlsTo w (d + 1) u s t := by
  simp only [CrawlsTo, hr, hc, hg, Bool.not_true, Bool.false_eq_true, if_false]
  exact ⟨order, hp, h⟩

/-- The run in list order is one of the runs of `CrawlsTo`. -/
theorem crawlsTo_crawl (w : Web) (d : Nat) :
    ∀ (u : String) (s : State), CrawlsTo w d u s (crawlWithRecursion w d u s) := by
  induction d with
  | zero => intro u s; simp [CrawlsTo, crawlWithRecursion]
  | succ d ih =>
    intro u s
    simp only [CrawlsTo, crawlWithRecursion]
    cases hr : w.resolve u with
    | none => simp
    | some a =>
      by_cases hc : stringsContains a w.host = true
      · simp only [hc, Bool.not_true, Bool.false_eq_true, if_false]
        cases hg : getUrlHtml w a with
        | error e => simp
        | ok doc =>
          exact ⟨doc.hrefs, List.Perm.refl _, forEach_foldl _ _ (fun c st => ih c st) _ _⟩
      · simp [hc]

theorem forEach_links (w : Web) (d : Nat)
    (ih : ∀ (u : String) (s t : State), CrawlsTo w d u s t →
      ∃ L : List String, t.crawledLinks = L.foldl CrawledLinks.record s.crawledLinks ∧
        ∀ x, x ∈ L ↔ x ∈ fetchedIn (events w d u))
    (order : List String) (s t : State)
    (h : ForEach (fun url st st1 => CrawlsTo w d url st st1) order s t) :
    ∃ L : List String, t.crawledLinks = L.foldl CrawledLinks.record s.crawledLinks ∧
      ∀ x, x ∈ L ↔ ∃ c ∈ order, x ∈ fetchedIn (events w d c) := by
  induction h with
  | nil s => exact ⟨[], rfl, by simp⟩
  | cons hstep _ ihrest =>
    obtain ⟨L1, h1, hm1⟩ := ih _ _ _ hstep
    obtain ⟨L2, h2, hm2⟩ := ihrest
    refine ⟨L1 ++ L2, by rw [h2, h1, List.foldl_append], ?_⟩
    intro x
    simp only [List.mem_append, hm1, hm2, List.mem_cons, exists_eq_or_imp]

/-- Whatever the order of the children, the final map is the initial map with
a list of URLs recorded that has the members of the fetched URLs of the run in
list order. -/
theorem crawlsTo_links (w : Web) (d : Nat) :
    ∀ (u : String) (s t : State), CrawlsTo w d u s t →
      ∃ L : List String, t.crawledLinks = L.foldl CrawledLinks.record s.crawledLinks ∧
        ∀ x, x ∈ L ↔ x ∈ fetchedIn (events w d u) := by
  induction d with
  | zero =>
    intro u s t h
    simp only [CrawlsTo] at h
    subst h
    exact ⟨[], rfl, by simp [events_zero, fetchedIn]⟩
  | succ d ih =>
    intro u s t h
    simp only [CrawlsTo] at h
    cases hr : w.resolve u with
    | none =>
      simp only [hr] at h
      subst h
      exact ⟨[], rfl, by simp [events_succ_resolveError w d u hr, fetchedIn]⟩
    | some a =>
      by_cases hc : stringsContains a w.host = true
      · simp only [hr, hc, Bool.not_true, Bool.false_eq_true, if_false] at h
        cases hg : getUrlHtml w a with
        | error e =>
          simp only [hg] at h
          subst h
          exact ⟨[a], rfl, by simp [events_succ_fetchError w d u a e hr hc hg, fetchedIn]⟩
        | ok doc =>
          simp only [hg] at h
          obtain ⟨order, hp, hfe⟩ := h
          obtain ⟨L, hL, hm⟩ := forEach_links w d ih order _ t hfe
          refine ⟨a :: L, by rw [hL]; rfl, ?_⟩
          intro x
          rw [events_succ_ok w d u a doc hr hc hg]
          simp only [List.mem_cons, hm, fetchedIn, List.filterMap_cons]
          have := fetchedIn_flatMap doc.hrefs (events w d)
          simp only [fetchedIn] at this
          simp only [this, List.mem_cons, List.mem_flatMap]
          constructor
          · rintro (h | ⟨c, hcm, hx⟩)
            · exact Or.inl h
            · exact Or.inr ⟨c, (hp.mem_iff).1 hcm, hx⟩
          · rintro (h | ⟨c, hcm, hx⟩)
            · exact Or.inl h
            · exact Or.inr ⟨c, (hp.mem_iff).2 hcm, hx⟩
      · have hc' : stringsContains a w.host = false := by simpa using hc
        simp only [hr, hc', Bool.not_false, if_true] at h
        subst h
        exact ⟨[], rfl, by simp [events_succ_external w d u a hr hc', fetchedIn]⟩

/-- Claim C10: two runs of the same invocation from the same state, with the
children of every page taken in any two orders, end with the same set of
recorded URLs (the set of the run in list order); when the initial keys have
no duplicates the two key lists are permutations of each other; and the
recordings of the run applied to the initial map in any order whatever give
that same set. -/
theorem order_independent (w : Web) (d : Nat) (u : String) (s t1 t2 : State)
    (h1 : CrawlsTo w d u s t1) (h2 : CrawlsTo w d u s t2) :
    (∀ x, x ∈ t1.keys ↔ x ∈ t2.keys) ∧
    (∀ x, x ∈ t1.keys ↔ x ∈ (crawlWithRecursion w d u s).keys) ∧
    (s.keys.Nodup → t1.keys.Perm t2.keys) ∧
    (∀ L : List String, L.Perm (crawlWithRecursion w d u State.init).fetched →
      ∀ x, x ∈ (L.foldl CrawledLinks.record s.crawledLinks).keys ↔ x ∈ t1.keys) := by
  obtain ⟨L1, e1, m1⟩ := crawlsTo_links w d u s t1 h1
  obtain ⟨L2, e2, m2⟩ := crawlsTo_links w d u s t2 h2
  have k1 : ∀ x, x ∈ t1.keys ↔ x ∈ s.keys ∨ x ∈ fetchedIn (events w d u) := by
    intro x
    rw [State.keys, e1, CrawledLinks.mem_keys_foldl_record, m1]
    rfl
  have k2 : ∀ x, x ∈ t2.keys ↔ x ∈ s.keys ∨ x ∈ fetchedIn (events w d u) := by
    intro x
    rw [State.keys, e2, CrawledLinks.mem_keys_foldl_record, m2]
    rfl
  refine ⟨fun x => by rw [k1, k2], fun x => by rw [k1, mem_keys_crawl], ?_, ?_⟩
  · intro hs
    have n1 : t1.keys.Nodup := by
      rw [State.keys, e1]; exact CrawledLinks.nodup_keys_foldl_record _ _ hs
    have n2 : t2.keys.Nodup := by
      rw [State.keys, e2]; exact CrawledLinks.nodup_keys_foldl_record _ _ hs
    exact (List.perm_ext_iff_of_nodup n1 n2).2 (fun x => by rw [k1, k2])
  · intro L hL x
    rw [CrawledLinks.mem_keys_foldl_record, k1, hL.mem_iff]
    rfl

/-- On the site of `failWeb` with depth 3: the run that takes the three links of
the seed page in list order and the run that takes them in reverse order
record the same URLs, in different entry order. -/
theorem order_independent_witness :
    (crawlWithRecursion failWeb 3 "http://example.test/" State.init).keys
      = ["http://example.test/", "http://example.test/missing", "http://example.test/ok",
         "http://example.test/deep"] ∧
    (["/ok", "not a url: with spaces", "/missing"].foldl
        (fun st url => crawlWithRecursion failWeb 2 url st)
        (((State.init.emit (.invoke "http://example.test/" ((2 + 1 : Nat) : Int))).record
          "http://example.test/").emit (.fetch "http://example.test/"))).keys
      = ["http://example.test/", "http://example.test/ok", "http://example.test/deep",
         "http://example.test/missing"] ∧
    ∀ x, x ∈ (crawlWithRecursion failWeb 3 "http://example.test/" State.init).keys ↔
      x ∈ (["/ok", "not a url: with spaces", "/missing"].foldl
        (fun st url => crawlWithRecursion failWeb 2 url st)
        (((State.init.emit (.invoke "http://example.test/" ((2 + 1 : Nat) : Int))).record
          "http://example.test/").emit (.fetch "http://example.test/"))).keys := by
  refine ⟨by decide, by decide, ?_⟩
  exact (order_independent failWeb 3 "http://example.test/" State.init _ _
    (crawlsTo_crawl failWeb 3 "http://example.test/" State.init)
    (crawlsTo_succ_ok failWeb 2 "http://example.test/" "http://example.test/"
      ⟨["/missing", "not a url: with spaces", "/ok"]⟩
      ["/ok", "not a url: with spaces", "/missing"] State.init _
      (by decide) (by decide) (by decide) (by decide)
      (forEach_foldl _ _ (fun c st => crawlsTo_crawl failWeb 2 c st) _ _))).1

/-! ## Already-seen URLs -/

theorem forEach_trace (w : Web) (d : Nat)
    (ih : ∀ (u : String) (s t : State), CrawlsTo w d u s t →
      ∃ T : List Event, t = s.replay T ∧ T.Perm (events w d u) ∧
        ∀ s1 : State, CrawlsTo w d u s1 (s1.replay T))
    (order : List String) (s t : State)
    (h : ForEach (fun url st st1 => CrawlsTo w d url st st1) order s t) :
    ∃ T : List Event, t = s.replay T ∧ T.Perm (order.flatMap (events w d)) ∧
      ∀ s1 : State,
        ForEach (fun url st st1 => CrawlsTo w d url st st1) order s1 (s1.replay T) := by
  induction h with
  | nil s => exact ⟨[], (State.replay_nil s).symm, by simp, fun s1 => by
      rw [State.replay_nil]; exact ForEach.nil s1⟩
  | cons hstep _ ihrest =>
    obtain ⟨T1, e1, p1, r1⟩ := ih _ _ _ hstep
    obtain ⟨T2, e2, p2, r2⟩ := ihrest
    refine ⟨T1 ++ T2, by rw [e2, e1, State.replay_append], ?_, ?_⟩
    · rw [List.flatMap_cons]
      exact List.Perm.append p1 p2
    · intro s1
      rw [State.replay_append]
      exact ForEach.cons (r1 s1) (r2 (s1.replay T1))

/-- Whatever the order of the children, a run extends the state by a trace that
is a permutation of the events of the run in list order, and the same trace
is a run from every other state. -/
theorem crawlsTo_trace (w : Web) (d : Nat) :
    ∀ (u : String) (s t : State), CrawlsTo w d u s t →
      ∃ T : List Event, t = s.replay T ∧ T.Perm (events w d u) ∧
        ∀ s1 : State, CrawlsTo w d u s1 (s1.replay T) := by
  induction d with
  | zero =>
    intro u s t h
    simp only [CrawlsTo] at h
    subst h
    refine ⟨[.invoke u 0], by simp [State.replay, State.emit, fetchedIn], ?_, ?_⟩
    · rw [events_zero]
    · intro s1
      simp [CrawlsTo, State.replay, State.emit, fetchedIn]
  | succ d ih =>
    intro u s t h
    simp only [CrawlsTo] at h
    cases hr : w.resolve u with
    | none =>
      simp only [hr] at h
      subst h
      refine ⟨[.invoke u ((d + 1 : Nat) : Int), .resolveError u],
        by simp [State.replay, State.emit, fetchedIn], ?_, ?_⟩
      · rw [events_succ_resolveError w d u hr]
      · intro s1
        simp [CrawlsTo, hr, State.replay, State.emit, fetchedIn]
    | some a =>
      by_cases hc : stringsContains a w.host = true
      · simp only [hr, hc, Bool.not_true, Bool.false_eq_true, if_false] at h
        cases hg : getUrlHtml w a with
        | error e =>
          simp only [hg] at h
          subst h
          refine ⟨[.invoke u ((d + 1 : Nat) : Int), .fetch a, .fetchError a],
            by simp [State.replay, State.emit, State.record, fetchedIn], ?_, ?_⟩
          · rw [events_succ_fetchError w d u a e hr hc hg]
          · intro s1
            simp [CrawlsTo, hr, hc, hg, State.replay, State.emit, State.record, fetchedIn]
        | ok doc =>
          simp only [hg] at h
          obtain ⟨order, hp, hfe⟩ := h
          obtain ⟨T, hT, pT, rT⟩ := forEach_trace w d ih order _ t hfe
          have hstart : ∀ s0 : State,
              ((s0.emit (.invoke u ((d + 1 : Nat) : Int))).record a).emit (.fetch a)
                = s0.replay [.invoke u ((d + 1 : Nat) : Int), .fetch a] := by
            intro s0
            simp [State.replay, State.emit, State.record, fetchedIn]
          refine ⟨[.invoke u ((d + 1 : Nat) : Int), .fetch a] ++ T, ?_, ?_, ?_⟩
          · rw [hT, hstart, State.replay_append]
          · rw [events_succ_ok w d u a doc hr hc hg]
            exact List.Perm.cons _ (List.Perm.cons _ (pT.trans (hp.flatMap_right _)))
          · intro s1
            apply crawlsTo_succ_ok w d u a doc order s1 _ hr hc hg hp
            rw [State.replay_append, hstart]
            exact rT _
      · have hc' : stringsContains a w.host = false := by simpa using hc
        simp only [hr, hc', Bool.not_false, if_true] at h
        subst h
        refine ⟨[.invoke u ((d + 1 : Nat) : Int), .external a],
          by simp [State.replay, State.emit, fetchedIn], ?_, ?_⟩
        · rw [events_succ_external w d u a hr hc']
        · intro s1
          simp [CrawlsTo, hr, hc', State.replay, State.emit, fetchedIn]

theorem failWebReversed_crawlsTo :
    CrawlsTo failWeb 3 "http://example.test/" State.init failWebReversed :=
  crawlsTo_succ_ok failWeb 2 "http://example.test/" "http://example.test/"
    ⟨["/missing", "not a url: with spaces", "/ok"]⟩
    ["/ok", "not a url: with spaces", "/missing"] State.init _
    (by decide) (by decide) (by decide) (by decide)
    (forEach_foldl _ _ (fun c st => crawlsTo_crawl failWeb 2 c st) _ _)

/-- Claim C9 as stated fails: on the site of `failWeb` with depth 3 the run that
takes the links of the seed page in list order and the run that takes them in
reverse order, both from the empty map, fetch the same URLs in different
orders; no one sequence of fetches fits every run. -/
theorem fetch_sequence_as_stated_fails :
    (crawlWithRecursion failWeb 3 "http://example.test/" State.init).fetched
      = ["http://example.test/", "http://example.test/missing", "http://example.test/ok",
         "http://example.test/deep"] ∧
    failWebReversed.fetched
      = ["http://example.test/", "http://example.test/ok", "http://example.test/deep",
         "http://example.test/missing"] ∧
    ¬ ∃ F : List String, ∀ S t : State,
        CrawlsTo failWeb 3 "http://example.test/" S t → t.fetched = S.fetched ++ F := by
  refine ⟨by decide, by decide, ?_⟩
  rintro ⟨F, h⟩
  have h1 := h State.init _ (crawlsTo_crawl failWeb 3 "http://example.test/" State.init)
  have h2 := h State.init _ failWebReversed_crawlsTo
  have h3 : (crawlWithRecursion failWeb 3 "http://example.test/" State.init).fetched
      = failWebReversed.fetched := by rw [h1, h2]
  revert h3
  decide

/-- Claim C9, amended: for every URL and depth `d ≥ 1` there are a set `C` of URLs
and a list `E` of events, the same for every initial state `S` and every order
of the children, such that: when the URL resolves and passes the scope test
it is fetched, and when that fetch succeeds each link of the page is invoked
with depth `d - 1`, also when `S` already holds the URL; the run in list order
appends `E` itself; and every run from `S` ends with the keys of `S` united
with `C` and appends a permutation `T` of `E`, so that the URLs it fetches
are, as a multiset, those of `E`. The order of the fetches is left to the
schedule: the same trace `T`, and so the same sequence of fetches, is a run
from every other initial state. -/
theorem reexpands_seen (w : Web) (d : Nat) (u : String) (hd : 0 < d) :
    ∃ (C : List String) (E : List Event),
      (∀ a, w.resolve u = some a → stringsContains a w.host = true →
        Event.fetch a ∈ E ∧
        ∀ doc, getUrlHtml w a = .ok doc →
          ∀ c ∈ doc.hrefs, Event.invoke c ((d : Int) - 1) ∈ E) ∧
      (∀ S : State, (crawlWithRecursion w d u S).trace = S.trace ++ E) ∧
      ∀ S t : State, CrawlsTo w d u S t →
        (∀ x, x ∈ t.keys ↔ x ∈ S.keys ∨ x ∈ C) ∧
        ∃ T : List Event, t.trace = S.trace ++ T ∧ T.Perm E ∧
          t.fetched = S.fetched ++ fetchedIn T ∧ (fetchedIn T).Perm (fetchedIn E) ∧
          ∀ S1 : State, ∃ t1 : State, CrawlsTo w d u S1 t1 ∧ t1.trace = S1.trace ++ T ∧
            t1.fetched = S1.fetched ++ fetchedIn T := by
  obtain ⟨m, rfl⟩ : ∃ m, d = m + 1 := ⟨d - 1, by omega⟩
  refine ⟨fetchedIn (events w (m + 1) u), events w (m + 1) u, ?_, ?_, ?_⟩
  · intro a hr hc
    refine ⟨fetch_mem_events w m u a hr hc, ?_⟩
    intro doc hg c hcm
    have h := child_events_sublist w m u a doc hr hc hg c hcm _ (invoke_mem_events w m c)
    simpa using h
  · exact trace_crawl w (m + 1) u
  · intro S t h
    obtain ⟨T, hT, pT, rT⟩ := crawlsTo_trace w (m + 1) u S t h
    have pF : (fetchedIn T).Perm (fetchedIn (events w (m + 1) u)) := by
      unfold fetchedIn
      exact pT.filterMap _
    refine ⟨?_, T, by rw [hT]; rfl, pT, by rw [hT]; simp [State.fetched, State.replay,
      fetchedIn_append], pF, ?_⟩
    · intro x
      rw [hT]
      simp only [State.keys, State.replay, CrawledLinks.mem_keys_foldl_record, pF.mem_iff]
    · intro S1
      exact ⟨S1.replay T, rT S1, rfl, by simp [State.fetched, State.replay, fetchedIn_append]⟩

/-- On the site of `failWeb` with depth 3: the run in reverse order fetches a
permutation of what the run in list order fetches, and its sequence of
fetches is also that of a run from a map that already holds the seed. -/
theorem reexpands_seen_witness :
    0 < 3 ∧
    failWebReversed.fetched.Perm
      (crawlWithRecursion failWeb 3 "http://example.test/" State.init).fetched ∧
    ∃ t1 : State,
      CrawlsTo failWeb 3 "http://example.test/" ⟨[("http://example.test/", true)], []⟩ t1 ∧
      t1.fetched = failWebReversed.fetched := by
  obtain ⟨C, E, -, hlist, h⟩ := reexpands_seen failWeb 3 "http://example.test/" (by decide)
  obtain ⟨-, T, -, -, hf, hp, hS⟩ := h State.init failWebReversed failWebReversed_crawlsTo
  have hrev : failWebReversed.fetched = fetchedIn T := by
    rw [hf]; simp [State.fetched, State.init, fetchedIn]
  have hE : (crawlWithRecursion failWeb 3 "http://example.test/" State.init).fetched
      = fetchedIn E := by
    rw [State.fetched, hlist]; simp [State.init]
  refine ⟨by decide, by rw [hrev, hE]; exact hp, ?_⟩
  obtain ⟨t1, hrun, -, hf1⟩ := hS ⟨[("http://example.test/", true)], []⟩
  refine ⟨t1, hrun, ?_⟩
  rw [hf1, hrev]
  simp [State.fetched, fetchedIn]

end Crawler
